import Mathlib

/-!
Verification of the wordle-artist matching engine (src/main.rs) against its
natural-language specification.

Embedding conventions: Rust strings are embedded as lists of characters
(`List Char`); the `HashMap<char, usize>` of remaining letter counts is a
total function `Char → Nat` (an absent key reads as 0, exactly as
`get(..).unwrap_or(&0)` does); the early `return false` inside the scan of
`does_match` is an `Option` threaded through the loop; machine-integer
subtraction on `usize` is `Nat` subtraction, and the separate theorem
`c9_no_underflow` shows the subtraction in the scan never reaches zero
counts, so truncation never diverges from the machine behaviour.
-/

namespace WordleArtist

/-- Rust constant: WORD_LENGTH = 5. -/
def WORD_LENGTH : Nat := 5

/-- Rust constant: GUESS_COUNT = 6. -/
def GUESS_COUNT : Nat := 6

/-- A Rust string value, as its sequence of Unicode scalar values. -/
abbrev Word := List Char

/-- The izip zipping of three sequences: zips up to the shortest of the three. -/
def izip : List α → List β → List γ → List (α × β × γ)
  | a :: as, b :: bs, c :: cs => (a, b, c) :: izip as bs cs
  | _, _, _ => []

/-- The letter multiset of the solution: the state of the map built by the
first loop of does_match, read as a total function with default 0. -/
def countsOf (solution : Word) : Char → Nat := fun c => solution.count c

/-- One decrement step on the count map for letter ch. -/
def decCount (counts : Char → Nat) (ch : Char) : Char → Nat :=
  fun x => if x = ch then counts x - 1 else counts x

/-- The main scan loop of does_match (src/main.rs lines 107 to 118): walks the
zipped triples, fails (returns none, modelling return false) as soon as the
demanded colour disagrees with the produced colour, and on a green position
consumes one occurrence of that letter from the count map. -/
def scanLoop : List (Char × Char × Bool) → (Char → Nat) → Option (Char → Nat)
  | [], counts => some counts
  | (test_char, solution_char, should_match) :: rest, counts =>
    let dm := decide (test_char = solution_char)
    if should_match ≠ dm then none
    else if dm then scanLoop rest (decCount counts test_char)
    else scanLoop rest counts

/-- does_match (src/main.rs lines 100 to 125).  The final pass of the Rust code
indexes goal_row at each position of test_word; we embed it as a zip, which
agrees with that indexing whenever test_word is no longer than goal_row — true
of every call in the program (length-5 dictionary words against length-5 goal
rows) and of every claim considered here. -/
def does_match (test_word solution : Word) (goal_row : List Bool) : Bool :=
  match scanLoop (izip test_word solution goal_row) (countsOf solution) with
  | none => false
  | some unused_counts =>
    (test_word.zip goal_row).all fun p => p.2 || decide (unused_counts p.1 = 0)

/-- Instrumented version of the scan loop: true iff no decrement is ever
applied to a letter whose remaining count is already zero, before the loop
finishes or returns early.  This witnesses that the unsigned subtraction
on the count map never underflows. -/
def scanNoUnderflow : List (Char × Char × Bool) → (Char → Nat) → Bool
  | [], _ => true
  | (test_char, solution_char, should_match) :: rest, counts =>
    let dm := decide (test_char = solution_char)
    if should_match ≠ dm then true
    else if dm then
      decide (0 < counts test_char) && scanNoUnderflow rest (decCount counts test_char)
    else scanNoUnderflow rest counts

/-- Number of green positions among the zipped triples carrying letter x:
these are exactly the decrements applied to the count map for x during a
scan that never fails. -/
def greensIn (l : List (Char × Char × Bool)) (x : Char) : Nat :=
  l.countP fun t => t.2.2 && decide (t.1 = x)

/-- Spec-side count: the number of green positions (candidate letter equal to
the solution letter at the same position) that carry letter x; one occurrence
of x is subtracted from the solution multiset for each of them. -/
def greenConsumed (c s : Word) (x : Char) : Nat :=
  (c.zip s).countP fun p => decide (p.1 = p.2) && decide (p.1 = x)

/-- True at the two row-separator characters: slash and newline. -/
def is_sep (ch : Char) : Bool := decide (ch = '/') || decide (ch = '\n')

/-- pattern_for_line (src/main.rs lines 83 to 90): pad the line with spaces,
keep WORD_LENGTH characters, and mark the non-space positions.  The infinite
repeat-space chain truncated by take WORD_LENGTH is embedded as appending
WORD_LENGTH spaces before the take, which yields the same first WORD_LENGTH characters. -/
def pattern_for_line (line : Word) : List Bool :=
  ((line ++ List.replicate WORD_LENGTH ' ').take WORD_LENGTH).map fun ch => decide (ch ≠ ' ')

/-- pattern_from_string (src/main.rs lines 69 to 76): split the text on slash
or newline, convert each line, pad with all-false rows (again an infinite
repeat chain truncated by take GUESS_COUNT, embedded as appending GUESS_COUNT
such rows), and keep exactly GUESS_COUNT rows. -/
def pattern_from_string (s : Word) : List (List Bool) :=
  ((s.splitOnP is_sep).map pattern_for_line
    ++ List.replicate GUESS_COUNT (List.replicate WORD_LENGTH false)).take GUESS_COUNT

/-- str::to_lowercase as applied to the solution before every does_match
call.  The program deals in ASCII dictionary words and solutions, on which
the Rust per-string lowercasing agrees with per-character Char.toLower. -/
def to_lowercase (s : Word) : Word := s.map Char.toLower

/-- find_matches (src/main.rs lines 92 to 98).  The rayon par_iter, filter and
collect pipeline over an indexed parallel iterator collects in the original
dictionary order, so its semantics is the order-preserving sequential filter
of the dictionary through does_match against the lowercased solution. -/
def find_matches (all_words : List Word) (solution : Word) (goal_row : List Bool) : List Word :=
  all_words.filter fun test_word => does_match test_word (to_lowercase solution) goal_row

/-- Rust String::len of the solution argument: the number of UTF-8 bytes. -/
def rustStrLen (s : Word) : Nat := (s.map Char.utf8Size).sum

/-- The entry point main (src/main.rs lines 39 to 67) up to the computation of
the per-row answer: the solution length assertion (line 42; Rust String::len
counts UTF-8 bytes) runs before any candidate search; on failure the process
panics with the given message and exits non-zero, embedded as Except.error;
on success the goal shape is built and find_matches runs for every row. -/
def run_main (solution : Word) (pattern : Word) (all_words : List Word) :
    Except String (List (List Word)) :=
  if rustStrLen solution ≠ WORD_LENGTH then
    Except.error "Solution should be 5 letters"
  else
    Except.ok ((pattern_from_string pattern).map fun goal_row =>
      find_matches all_words solution goal_row)

/-- The weights vector of format_example (src/main.rs line 144): the squares
of n, n-1, ..., 1 for a sampling pool of size n, built as the reversed range
1..=n mapped through squaring. -/
def sample_weights (n : Nat) : List Nat :=
  ((List.range' 1 n).reverse).map fun w => w * w

/-- One run of the sampled renderer loop of format_example (src/main.rs lines
132 to 153).  Candidate lists are processed in row order; used_words is the
set of words already chosen (used only through membership, like the HashSet);
choices supplies the outcome of each weighted draw.  WeightedIndex::new
errors exactly when the total weight is zero; the weights are the strictly
positive squares of sample_weights, so this happens exactly for an empty
pool, in which case the row renders as the no-solution sentinel and nothing
is marked used nor any draw consumed.  dist.sample returns an index carrying
positive weight, hence any index below the pool size; an arbitrary draw
outcome is embedded as an arbitrary natural reduced modulo the pool size, so
quantifying over choices covers every possible run. -/
def format_example_loop : List (List Word) → List Nat → List Word → List (Option Word)
  | [], _, _ => []
  | all_row_answers :: rest, choices, used_words =>
    let unused_row_answers := all_row_answers.filter fun w => decide (w ∉ used_words)
    let row_answers := if unused_row_answers.isEmpty then all_row_answers
      else unused_row_answers
    if (sample_weights row_answers.length).sum = 0 then
      none :: format_example_loop rest choices used_words
    else
      let word := row_answers.getD (choices.headD 0 % row_answers.length) []
      some word :: format_example_loop rest choices.tail (word :: used_words)

/-- str::to_uppercase as applied to every rendered word (ASCII dictionary). -/
def to_uppercase (w : Word) : Word := w.map Char.toUpper

/-- Rendering of one sampled row: the chosen word uppercased, or the
no-solution sentinel pushed by the Err branch. -/
def render_line : Option Word → Word
  | some w => to_uppercase w
  | none => "[no solution]".data

/-- The lines of format_example before the final newline join. -/
def format_example_lines (answer : List (List Word)) (choices : List Nat) : List Word :=
  (format_example_loop answer choices []).map render_line

/-- format_example (src/main.rs lines 127 to 156): the sampled lines joined
with newlines. -/
def format_example (answer : List (List Word)) (choices : List Nat) : Word :=
  List.intercalate ['\n'] (format_example_lines answer choices)

/-- The lines of format_full: every candidate of a row, uppercased and
space-joined. -/
def format_full_lines (answer : List (List Word)) : List Word :=
  answer.map fun line => List.intercalate [' '] (line.map to_uppercase)

/-- format_full (src/main.rs lines 158 to 163): the exhaustive lines joined
with newlines. -/
def format_full (answer : List (List Word)) : Word :=
  List.intercalate ['\n'] (format_full_lines answer)

lemma scanNoUnderflow_of_le (l : List (Char × Char × Bool)) (counts : Char → Nat)
    (h : ∀ x, (l.map fun t => t.2.1).count x ≤ counts x) :
    scanNoUnderflow l counts = true := by
  induction l generalizing counts with
  | nil => rfl
  | cons t rest ih =>
    obtain ⟨tc, sc, sm⟩ := t
    by_cases hms : sm ≠ decide (tc = sc)
    · simp [scanNoUnderflow, hms]
    · rw [not_not] at hms
      by_cases hgreen : tc = sc
      · subst hgreen
        have hsm : sm = true := by simp [hms]
        have hcount : ((rest.map fun t => t.2.1).count tc) + 1 ≤ counts tc := by
          have := h tc
          simpa [List.count_cons] using this
        have hrec : scanNoUnderflow rest (decCount counts tc) = true := by
          refine ih _ fun x => ?_
          have hx2 := h x
          simp only [List.map_cons, List.count_cons] at hx2
          by_cases hx : x = tc
          · subst hx
            have hdc : decCount counts x x = counts x - 1 := by simp [decCount]
            rw [hdc]
            simp at hx2
            omega
          · have hdc : decCount counts tc x = counts x := by simp [decCount, hx]
            rw [hdc]
            exact le_trans (Nat.le_add_right _ _) hx2
        have hpos : 0 < counts tc := by omega
        simp [scanNoUnderflow, hsm, hrec, hpos]
      · have hsm : sm = false := by simp [hms, hgreen]
        have hrec : scanNoUnderflow rest counts = true := by
          refine ih _ fun x => ?_
          have hx2 := h x
          simp only [List.map_cons, List.count_cons] at hx2
          exact le_trans (Nat.le_add_right _ _) hx2
        simp [scanNoUnderflow, hsm, hgreen, hrec]

lemma count_izip_sols_le (t s : Word) (g : List Bool) (x : Char) :
    ((izip t s g).map fun p => p.2.1).count x ≤ s.count x := by
  induction t generalizing s g with
  | nil => simp [izip]
  | cons a as ih =>
    cases s with
    | nil => simp [izip]
    | cons b bs =>
      cases g with
      | nil => simp [izip]
      | cons c cs =>
        have := ih bs cs
        simp [izip, List.count_cons]
        omega

/-- C9: for candidate, solution and goal row of any lengths, every decrement
performed at a green position during the scan of does_match acts on a
strictly positive count: the unsigned subtraction never underflows, because
a green at position i consumes exactly the solution letter at position i. -/
theorem c9_no_underflow (test_word solution : Word) (goal_row : List Bool) :
    scanNoUnderflow (izip test_word solution goal_row) (countsOf solution) = true :=
  scanNoUnderflow_of_le _ _ fun x => count_izip_sols_le test_word solution goal_row x

lemma scanLoop_isSome_iff (l : List (Char × Char × Bool)) (counts : Char → Nat) :
    (scanLoop l counts).isSome = true ↔ ∀ t ∈ l, decide (t.1 = t.2.1) = t.2.2 := by
  induction l generalizing counts with
  | nil => simp [scanLoop]
  | cons t rest ih =>
    obtain ⟨tc, sc, sm⟩ := t
    by_cases hms : sm ≠ decide (tc = sc)
    · have hnone : scanLoop ((tc, sc, sm) :: rest) counts = none := by
        simp [scanLoop, hms]
      rw [hnone]
      simp only [Option.isSome_none, Bool.false_eq_true, false_iff]
      intro hall
      exact hms (hall (tc, sc, sm) (List.mem_cons_self _ _)).symm
    · rw [not_not] at hms
      subst hms
      by_cases hgreen : tc = sc
      · have hstep : scanLoop ((tc, sc, decide (tc = sc)) :: rest) counts
            = scanLoop rest (decCount counts tc) := by
          simp [scanLoop, hgreen]
        rw [hstep, ih]
        simp [hgreen]
      · have hstep : scanLoop ((tc, sc, decide (tc = sc)) :: rest) counts
            = scanLoop rest counts := by
          simp [scanLoop, hgreen]
        rw [hstep, ih]
        simp [hgreen]

lemma scanLoop_of_agree (l : List (Char × Char × Bool)) (counts : Char → Nat)
    (h : ∀ t ∈ l, decide (t.1 = t.2.1) = t.2.2) :
    scanLoop l counts = some fun x => counts x - greensIn l x := by
  induction l generalizing counts with
  | nil => simp [scanLoop, greensIn]
  | cons t rest ih =>
    obtain ⟨tc, sc, sm⟩ := t
    have hhead : decide (tc = sc) = sm := h _ (List.mem_cons_self _ _)
    have hrest : ∀ t ∈ rest, decide (t.1 = t.2.1) = t.2.2 :=
      fun t ht => h t (List.mem_cons_of_mem _ ht)
    subst hhead
    by_cases hgreen : tc = sc
    · subst hgreen
      have hstep : scanLoop ((tc, tc, decide (tc = tc)) :: rest) counts
          = scanLoop rest (decCount counts tc) := by
        simp [scanLoop]
      rw [hstep, ih _ hrest]
      congr 1
      funext x
      by_cases hx : tc = x
      · subst hx
        simp [greensIn, List.countP_cons, decCount]
        omega
      · simp [greensIn, List.countP_cons, decCount, hx, Ne.symm hx]
    · have hstep : scanLoop ((tc, sc, decide (tc = sc)) :: rest) counts
          = scanLoop rest counts := by
        simp [scanLoop, hgreen]
      rw [hstep, ih _ hrest]
      congr 1
      funext x
      simp [greensIn, List.countP_cons, hgreen]

lemma izip_getElem? (as : List α) (bs : List β) (cs : List γ) (i : Nat) :
    (izip as bs cs)[i]? =
      as[i]?.bind fun a => bs[i]?.bind fun b => cs[i]?.map fun c => (a, b, c) := by
  induction as generalizing bs cs i with
  | nil => simp [izip]
  | cons a as ih =>
    cases bs with
    | nil =>
      cases habs : (a :: as)[i]? <;> simp [izip, habs]
    | cons b bs =>
      cases cs with
      | nil =>
        cases habs : (a :: as)[i]? <;> cases hbbs : (b :: bs)[i]? <;>
          simp [izip, habs, hbbs]
      | cons c cs =>
        cases i with
        | zero => simp [izip]
        | succ n => simpa [izip] using ih bs cs n

lemma forall_izip_iff (cw s : Word) (g : List Bool)
    (hcs : s.length = cw.length) (hcg : g.length = cw.length)
    (P : Char × Char × Bool → Prop) :
    (∀ t ∈ izip cw s g, P t) ↔
      ∀ i, i < cw.length → P (cw.getD i ' ', s.getD i ' ', g.getD i false) := by
  constructor
  · intro h i hi
    have hc : cw[i]? = some (cw.getD i ' ') := by
      rw [List.getD_eq_getElem _ _ hi]
      exact List.getElem?_eq_getElem hi
    have hs2 : s[i]? = some (s.getD i ' ') := by
      have hi2 : i < s.length := by omega
      rw [List.getD_eq_getElem _ _ hi2]
      exact List.getElem?_eq_getElem hi2
    have hg2 : g[i]? = some (g.getD i false) := by
      have hi2 : i < g.length := by omega
      rw [List.getD_eq_getElem _ _ hi2]
      exact List.getElem?_eq_getElem hi2
    apply h
    rw [List.mem_iff_getElem?]
    exact ⟨i, by rw [izip_getElem?, hc, hs2, hg2]; rfl⟩
  · intro h t ht
    obtain ⟨i, hio⟩ := List.getElem?_of_mem ht
    rw [izip_getElem?] at hio
    cases hc : (cw[i]?) with
    | none => rw [hc] at hio; simp at hio
    | some a =>
      cases hs2 : (s[i]?) with
      | none => rw [hc, hs2] at hio; simp at hio
      | some b =>
        cases hg2 : (g[i]?) with
        | none => rw [hc, hs2, hg2] at hio; simp at hio
        | some d =>
          rw [hc, hs2, hg2] at hio
          simp at hio
          obtain ⟨hi, hcv⟩ := List.getElem?_eq_some.mp hc
          obtain ⟨hi2, hsv⟩ := List.getElem?_eq_some.mp hs2
          obtain ⟨hi3, hgv⟩ := List.getElem?_eq_some.mp hg2
          have ht2 := h i hi
          rw [List.getD_eq_getElem _ _ hi, List.getD_eq_getElem _ _ hi2,
            List.getD_eq_getElem _ _ hi3, hcv, hsv, hgv] at ht2
          rw [← hio]
          exact ht2

lemma forall_zip_iff (cw : Word) (g : List Bool) (hcg : g.length = cw.length)
    (P : Char × Bool → Prop) :
    (∀ p ∈ cw.zip g, P p) ↔ ∀ i, i < cw.length → P (cw.getD i ' ', g.getD i false) := by
  constructor
  · intro h i hi
    have hc : cw[i]? = some (cw.getD i ' ') := by
      rw [List.getD_eq_getElem _ _ hi]
      exact List.getElem?_eq_getElem hi
    have hg2 : g[i]? = some (g.getD i false) := by
      have hi2 : i < g.length := by omega
      rw [List.getD_eq_getElem _ _ hi2]
      exact List.getElem?_eq_getElem hi2
    apply h
    rw [List.mem_iff_getElem?]
    exact ⟨i, List.getElem?_zip_eq_some.mpr ⟨hc, hg2⟩⟩
  · intro h p hp
    obtain ⟨i, hio⟩ := List.getElem?_of_mem hp
    obtain ⟨h1, h2⟩ := List.getElem?_zip_eq_some.mp hio
    obtain ⟨hi, hcv⟩ := List.getElem?_eq_some.mp h1
    obtain ⟨hi2, hgv⟩ := List.getElem?_eq_some.mp h2
    have hp2 := h i hi
    rw [List.getD_eq_getElem _ _ hi, List.getD_eq_getElem _ _ hi2, hcv, hgv] at hp2
    simpa using hp2

lemma greensIn_izip_eq (c s : Word) (g : List Bool)
    (hcs : s.length = c.length) (hcg : g.length = c.length)
    (hA : ∀ t ∈ izip c s g, decide (t.1 = t.2.1) = t.2.2) (x : Char) :
    greensIn (izip c s g) x = greenConsumed c s x := by
  induction c generalizing s g with
  | nil =>
    have hs0 : s = [] := List.length_eq_zero.mp (by simpa using hcs)
    have hg0 : g = [] := List.length_eq_zero.mp (by simpa using hcg)
    subst hs0
    subst hg0
    rfl
  | cons a as ih =>
    cases s with
    | nil => simp at hcs
    | cons b bs =>
      cases g with
      | nil => simp at hcg
      | cons d ds =>
        have hhead : decide (a = b) = d := hA _ (List.mem_cons_self _ _)
        have hrest : ∀ t ∈ izip as bs ds, decide (t.1 = t.2.1) = t.2.2 :=
          fun t ht => hA t (List.mem_cons_of_mem _ ht)
        have h1 : bs.length = as.length := by simpa using hcs
        have h2 : ds.length = as.length := by simpa using hcg
        have ihr := ih bs ds h1 h2 hrest
        simp only [greensIn, greenConsumed] at ihr ⊢
        simp only [izip, List.zip_cons_cons, List.countP_cons]
        rw [ihr, ← hhead]

lemma does_match_iff (cw s : Word) (g : List Bool)
    (hcs : s.length = cw.length) (hcg : g.length = cw.length) :
    does_match cw s g = true ↔
      ((∀ i, i < cw.length → ((cw.getD i ' ' = s.getD i ' ') ↔ g.getD i false = true)) ∧
       (∀ i, i < cw.length → g.getD i false = false →
         s.count (cw.getD i ' ') - greenConsumed cw s (cw.getD i ' ') = 0)) := by
  by_cases hA : ∀ t ∈ izip cw s g, decide (t.1 = t.2.1) = t.2.2
  · have hsome := scanLoop_of_agree (izip cw s g) (countsOf s) hA
    have hgoal1 : ∀ i, i < cw.length → ((cw.getD i ' ' = s.getD i ' ') ↔ g.getD i false = true) := by
      have hidx := (forall_izip_iff cw s g hcs hcg
        fun t => decide (t.1 = t.2.1) = t.2.2).mp hA
      intro i hi
      have h2 := hidx i hi
      dsimp only at h2
      rw [← h2]
      simp
    have hcounts : ∀ x, countsOf s x - greensIn (izip cw s g) x
        = s.count x - greenConsumed cw s x := by
      intro x
      rw [greensIn_izip_eq cw s g hcs hcg hA x]
      rfl
    simp only [does_match, hsome]
    rw [List.all_eq_true, forall_zip_iff cw g hcg, and_iff_right hgoal1]
    constructor
    · intro h i hi hgi
      have h3 := h i hi
      dsimp only at h3
      rw [hgi, hcounts] at h3
      simpa using h3
    · intro h i hi
      dsimp only
      rw [hcounts]
      cases hgi : g.getD i false
      · simpa using h i hi hgi
      · simp
  · have hnone : scanLoop (izip cw s g) (countsOf s) = none := by
      cases hsc : scanLoop (izip cw s g) (countsOf s) with
      | none => rfl
      | some f =>
        exact absurd ((scanLoop_isSome_iff _ _).mp (by rw [hsc]; rfl)) hA
    have hfalse : does_match cw s g = false := by
      simp [does_match, hnone]
    rw [hfalse]
    simp only [Bool.false_eq_true, false_iff]
    intro hcon
    apply hA
    rw [forall_izip_iff cw s g hcs hcg]
    intro i hi
    have h1 := hcon.1 i hi
    dsimp only
    cases hgi : g.getD i false
    · rw [hgi] at h1
      simp only [Bool.false_eq_true, iff_false] at h1
      exact decide_eq_false h1
    · rw [hgi] at h1
      simp only [iff_true] at h1
      exact decide_eq_true h1

/-- C1: for candidate, solution and goal row of length WORD_LENGTH, does_match
decides Policy B with multiset accounting: it returns true iff (1) at every
position i the candidate letter equals the solution letter exactly when the
goal row is true at i, and (2) at every position i where the goal row is
false, the candidate letter at i has zero remaining count in the solution
letter multiset after subtracting one occurrence for each green position of
that letter (letters counted with multiplicity via greenConsumed, not as a
plain set). -/
theorem c1_feedback_policyB (cw s : Word) (g : List Bool)
    (hc : cw.length = WORD_LENGTH) (hs : s.length = WORD_LENGTH)
    (hg : g.length = WORD_LENGTH) :
    does_match cw s g = true ↔
      ((∀ i, i < WORD_LENGTH → ((cw.getD i ' ' = s.getD i ' ') ↔ g.getD i false = true)) ∧
       (∀ i, i < WORD_LENGTH → g.getD i false = false →
         s.count (cw.getD i ' ') - greenConsumed cw s (cw.getD i ' ') = 0)) := by
  have := does_match_iff cw s g (by omega) (by omega)
  rw [hc] at this
  exact this

/-- Witness for c1_feedback_policyB at the concrete candidate "stare" against
solution "speed" with goal row demanding green only at position 0. -/
theorem c1_feedback_policyB_witness :
    ((['s','t','a','r','e'] : Word).length = WORD_LENGTH ∧
     (['s','p','e','e','d'] : Word).length = WORD_LENGTH ∧
     ([true, false, false, false, false] : List Bool).length = WORD_LENGTH) ∧
    (does_match ['s','t','a','r','e'] ['s','p','e','e','d']
        [true, false, false, false, false] = true ↔
      ((∀ i, i < WORD_LENGTH →
          (((['s','t','a','r','e'] : Word).getD i ' '
              = (['s','p','e','e','d'] : Word).getD i ' ') ↔
            ([true, false, false, false, false] : List Bool).getD i false = true)) ∧
       (∀ i, i < WORD_LENGTH →
          ([true, false, false, false, false] : List Bool).getD i false = false →
          (['s','p','e','e','d'] : Word).count
              ((['s','t','a','r','e'] : Word).getD i ' ')
            - greenConsumed ['s','t','a','r','e'] ['s','p','e','e','d']
                ((['s','t','a','r','e'] : Word).getD i ' ') = 0))) :=
  ⟨⟨by decide, by decide, by decide⟩,
    c1_feedback_policyB _ _ _ (by decide) (by decide) (by decide)⟩

lemma does_match_false_of_mismatch (cw s : Word) (g : List Bool)
    (hcs : s.length = cw.length) (hcg : g.length = cw.length)
    (i : Nat) (hi : i < cw.length)
    (hbad : decide (cw.getD i ' ' = s.getD i ' ') ≠ g.getD i false) :
    does_match cw s g = false := by
  cases hdm : does_match cw s g with
  | false => rfl
  | true =>
    have hchar := (does_match_iff cw s g hcs hcg).mp hdm
    have h1 := hchar.1 i hi
    apply absurd _ hbad
    cases hgi : g.getD i false
    · rw [hgi] at h1
      simp only [Bool.false_eq_true, iff_false] at h1
      exact decide_eq_false h1
    · rw [hgi] at h1
      simp only [iff_true] at h1
      exact decide_eq_true h1

/-- C2: for candidate, solution and goal row of length WORD_LENGTH, does_match
returns false whenever some position i disagrees with the demanded colour
(green produced but not demanded, or demanded but not produced); moreover the
left-to-right scan fails at the first such position, so the result is false
for every choice of candidate, solution and goal row that agree with the
given ones up to and including position i. -/
theorem c2_mismatch_rejects (cw s : Word) (g : List Bool)
    (hc : cw.length = WORD_LENGTH) (hs : s.length = WORD_LENGTH)
    (hg : g.length = WORD_LENGTH) (i : Nat) (hi : i < WORD_LENGTH)
    (hbad : decide (cw.getD i ' ' = s.getD i ' ') ≠ g.getD i false) :
    does_match cw s g = false ∧
    ∀ cw2 s2 : Word, ∀ g2 : List Bool,
      cw2.length = WORD_LENGTH → s2.length = WORD_LENGTH → g2.length = WORD_LENGTH →
      (∀ j, j ≤ i → cw2.getD j ' ' = cw.getD j ' ' ∧ s2.getD j ' ' = s.getD j ' ' ∧
        g2.getD j false = g.getD j false) →
      does_match cw2 s2 g2 = false := by
  constructor
  · exact does_match_false_of_mismatch cw s g (by omega) (by omega) i (by omega) hbad
  · intro cw2 s2 g2 hc2 hs2 hg2 hagree
    obtain ⟨e1, e2, e3⟩ := hagree i (le_refl i)
    refine does_match_false_of_mismatch cw2 s2 g2 (by omega) (by omega) i (by omega) ?_
    rw [e1, e2, e3]
    exact hbad

/-- Witness for c2_mismatch_rejects: candidate "crane" against solution
"crane" with an all-false goal row disagrees at position 0. -/
theorem c2_mismatch_rejects_witness :
    ((['c','r','a','n','e'] : Word).length = WORD_LENGTH ∧
     (0 : Nat) < WORD_LENGTH ∧
     decide ((['c','r','a','n','e'] : Word).getD 0 ' '
        = (['c','r','a','n','e'] : Word).getD 0 ' ')
       ≠ ([false, false, false, false, false] : List Bool).getD 0 false) ∧
    does_match ['c','r','a','n','e'] ['c','r','a','n','e']
      [false, false, false, false, false] = false :=
  ⟨⟨by decide, by decide, by decide⟩,
    (c2_mismatch_rejects ['c','r','a','n','e'] ['c','r','a','n','e']
      [false, false, false, false, false] (by decide) (by decide) (by decide)
      0 (by decide) (by decide)).1⟩

/-- C10: for candidate and solution of length WORD_LENGTH, does_match with the
all-true goal row accepts exactly the solution itself: demanding green
everywhere admits only the solution word, and the non-green check is vacuous. -/
theorem c10_all_true_row (cw s : Word)
    (hc : cw.length = WORD_LENGTH) (hs : s.length = WORD_LENGTH) :
    does_match cw s (List.replicate WORD_LENGTH true) = true ↔ cw = s := by
  rw [does_match_iff cw s (List.replicate WORD_LENGTH true) (by omega)
    (by simp [hc])]
  constructor
  · intro h
    apply List.ext_getElem (by omega)
    intro i h1 h2
    have hlen : i < (List.replicate WORD_LENGTH true).length := by
      simp only [List.length_replicate]
      omega
    have hrep : (List.replicate WORD_LENGTH true).getD i false = true := by
      rw [List.getD_eq_getElem _ _ hlen]
      simp
    have hv := (h.1 i (by omega)).mpr hrep
    rw [List.getD_eq_getElem _ _ h1, List.getD_eq_getElem _ _ h2] at hv
    exact hv
  · intro h
    subst h
    constructor
    · intro i hi
      have hlen : i < (List.replicate WORD_LENGTH true).length := by
        simp only [List.length_replicate]
        omega
      have hrep : (List.replicate WORD_LENGTH true).getD i false = true := by
        rw [List.getD_eq_getElem _ _ hlen]
        simp
      rw [hrep]
      simp
    · intro i hi hfalse
      have hlen : i < (List.replicate WORD_LENGTH true).length := by
        simp only [List.length_replicate]
        omega
      have hrep : (List.replicate WORD_LENGTH true).getD i false = true := by
        rw [List.getD_eq_getElem _ _ hlen]
        simp
      rw [hrep] at hfalse
      simp at hfalse

/-- Witness for c10_all_true_row at candidate and solution "crane". -/
theorem c10_all_true_row_witness :
    ((['c','r','a','n','e'] : Word).length = WORD_LENGTH) ∧
    (does_match ['c','r','a','n','e'] ['c','r','a','n','e']
        (List.replicate WORD_LENGTH true) = true ↔
      (['c','r','a','n','e'] : Word) = ['c','r','a','n','e']) :=
  ⟨by decide, c10_all_true_row _ _ (by decide) (by decide)⟩

lemma pattern_for_line_getD (line : Word) (j : Nat) (hj : j < WORD_LENGTH) :
    (pattern_for_line line).getD j false = decide (line.getD j ' ' ≠ ' ') := by
  unfold pattern_for_line
  by_cases hjl : j < line.length
  · rw [List.getD_eq_getElem?_getD, List.getElem?_map, List.getElem?_take_of_lt hj,
      List.getElem?_append_left hjl, List.getElem?_eq_getElem hjl,
      List.getD_eq_getElem?_getD, List.getElem?_eq_getElem hjl]
    rfl
  · have hge : line.length ≤ j := not_lt.mp hjl
    rw [List.getD_eq_getElem?_getD, List.getElem?_map, List.getElem?_take_of_lt hj,
      List.getElem?_append_right hge, List.getD_eq_getElem?_getD,
      List.getElem?_eq_none hge, List.getElem?_replicate_of_lt (by omega)]
    rfl

lemma pattern_from_string_getElem? (s : Word) (i : Nat) (hi : i < GUESS_COUNT) :
    (pattern_from_string s)[i]? =
      if i < (s.splitOnP is_sep).length
      then some (pattern_for_line ((s.splitOnP is_sep).getD i []))
      else some (List.replicate WORD_LENGTH false) := by
  unfold pattern_from_string
  rw [List.getElem?_take_of_lt hi]
  by_cases hil : i < (s.splitOnP is_sep).length
  · rw [if_pos hil, List.getElem?_append_left (by simpa using hil), List.getElem?_map,
      List.getD_eq_getElem?_getD, List.getElem?_eq_getElem hil]
    rfl
  · rw [if_neg hil, List.getElem?_append_right (by simpa using not_lt.mp hil),
      List.length_map, List.getElem?_replicate_of_lt (by omega)]

/-- C4: the pattern matrix builder always returns exactly GUESS_COUNT rows of
exactly WORD_LENGTH booleans; position j of row i is true exactly when a
non-space character sits at position j of line i of the split input (false
when the line is shorter, the character is a space, or the row is one of the
all-false padding rows), lines being the split of the text on slash or
newline, truncated at WORD_LENGTH columns and GUESS_COUNT rows. -/
theorem c4_pattern_matrix (s : Word) :
    (pattern_from_string s).length = GUESS_COUNT ∧
    (∀ row ∈ pattern_from_string s, row.length = WORD_LENGTH) ∧
    (∀ i, i < GUESS_COUNT → ∀ j, j < WORD_LENGTH →
      ((pattern_from_string s).getD i []).getD j false
        = decide (((s.splitOnP is_sep).getD i []).getD j ' ' ≠ ' ')) := by
  refine ⟨?_, ?_, ?_⟩
  · unfold pattern_from_string
    simp
  · intro row hrow
    unfold pattern_from_string at hrow
    rcases List.mem_append.mp (List.mem_of_mem_take hrow) with hmap | hrep
    · obtain ⟨line, _, rfl⟩ := List.mem_map.mp hmap
      simp [pattern_for_line]
    · rw [List.eq_of_mem_replicate hrep]
      simp
  · intro i hi j hj
    have hmain := pattern_from_string_getElem? s i hi
    by_cases hil : i < (s.splitOnP is_sep).length
    · have houter : (pattern_from_string s).getD i []
          = pattern_for_line ((s.splitOnP is_sep).getD i []) := by
        rw [List.getD_eq_getElem?_getD, hmain, if_pos hil, Option.getD_some]
      rw [houter]
      exact pattern_for_line_getD _ j hj
    · have houter : (pattern_from_string s).getD i []
          = List.replicate WORD_LENGTH false := by
        rw [List.getD_eq_getElem?_getD, hmain, if_neg hil, Option.getD_some]
      rw [houter, List.getD_eq_default _ _ (not_lt.mp hil), List.getD_nil,
        List.getD_eq_getElem _ _ (by simpa using hj), List.getElem_replicate]
      simp

/-- Witness for c4_pattern_matrix on the pattern "ab/cde" at row 0, column 1. -/
theorem c4_pattern_matrix_witness :
    (pattern_from_string ['a','b','/','c','d','e']).length = GUESS_COUNT ∧
    (0 : Nat) < GUESS_COUNT ∧ (1 : Nat) < WORD_LENGTH ∧
    ((pattern_from_string ['a','b','/','c','d','e']).getD 0 []).getD 1 false
      = decide (((((['a','b','/','c','d','e'] : Word).splitOnP is_sep).getD 0 []).getD 1 ' ')
          ≠ ' ') :=
  ⟨(c4_pattern_matrix ['a','b','/','c','d','e']).1, by decide, by decide,
    (c4_pattern_matrix ['a','b','/','c','d','e']).2.2 0 (by decide) 1 (by decide)⟩

/-- C5: find_matches is exactly the order-preserving filter of the dictionary:
the result is a sublist (subsequence in original insertion order) of the
dictionary, a word is in the result iff it is a dictionary word satisfying
does_match against the lowercased solution, and the empty dictionary yields
the empty candidate list rather than an error. -/
theorem c5_find_matches (all_words : List Word) (solution : Word) (goal_row : List Bool) :
    find_matches [] solution goal_row = [] ∧
    (find_matches all_words solution goal_row).Sublist all_words ∧
    (∀ w, w ∈ find_matches all_words solution goal_row ↔
      w ∈ all_words ∧ does_match w (to_lowercase solution) goal_row = true) := by
  refine ⟨rfl, List.filter_sublist _, fun w => ?_⟩
  simp [find_matches, List.mem_filter]

/-- Witness for c5_find_matches on a two-word dictionary. -/
theorem c5_find_matches_witness :
    (['c','r','a','n','e'] : Word)
        ∈ find_matches [['c','r','a','n','e'], ['s','p','e','e','d']]
            ['C','R','A','N','E'] [true, true, true, true, true] ↔
      (['c','r','a','n','e'] : Word) ∈ [['c','r','a','n','e'], ['s','p','e','e','d']] ∧
        does_match ['c','r','a','n','e'] (to_lowercase ['C','R','A','N','E'])
          [true, true, true, true, true] = true :=
  (c5_find_matches [['c','r','a','n','e'], ['s','p','e','e','d']]
    ['C','R','A','N','E'] [true, true, true, true, true]).2.2 ['c','r','a','n','e']

/-- C3 counterexample: the solution string with the five characters h, é, l,
l, o has exactly WORD_LENGTH characters, yet the program aborts, because the
assertion compares the UTF-8 byte length (6 for this string) with
WORD_LENGTH, not the character count. -/
theorem c3_counterexample :
    (['h','é','l','l','o'] : Word).length = WORD_LENGTH ∧
    run_main ['h','é','l','l','o'] [] []
      = Except.error "Solution should be 5 letters" :=
  ⟨by decide, by rfl⟩

/-- C3 amended: the program aborts fatally, before any candidate search,
exactly when the UTF-8 byte length (Rust String::len) of the supplied
solution differs from WORD_LENGTH; when the byte length equals WORD_LENGTH
the validation passes for any string and the per-row search results are
returned.  (For pure ASCII solutions the byte length coincides with the
character count claimed in the spec.) -/
theorem c3_validation_is_byte_length (solution pattern : Word) (all_words : List Word) :
    (run_main solution pattern all_words
        = Except.error "Solution should be 5 letters"
      ↔ rustStrLen solution ≠ WORD_LENGTH) ∧
    (rustStrLen solution = WORD_LENGTH →
      run_main solution pattern all_words
        = Except.ok ((pattern_from_string pattern).map fun goal_row =>
            find_matches all_words solution goal_row)) := by
  unfold run_main
  by_cases h : rustStrLen solution = WORD_LENGTH
  · rw [if_neg (by simp [h])]
    constructor
    · simp [h]
    · intro _
      rfl
  · rw [if_pos h]
    constructor
    · simp [h]
    · intro hcon
      exact absurd hcon h

/-- Witness for c3_validation_is_byte_length at the solution "crane". -/
theorem c3_validation_is_byte_length_witness :
    rustStrLen ['c','r','a','n','e'] = WORD_LENGTH ∧
    run_main ['c','r','a','n','e'] [] []
      = Except.ok ((pattern_from_string []).map fun goal_row =>
          find_matches [] ['c','r','a','n','e'] goal_row) :=
  ⟨by decide, (c3_validation_is_byte_length ['c','r','a','n','e'] [] []).2 (by decide)⟩

/-- C8: the weight vector over a sampling pool of size n is exactly
(n^2, (n-1)^2, ..., 4, 1): it has length n and the entry at index i is the
square of the rank counted from the end, namely (n - i)^2, so the
first-listed candidate receives n^2 and the last-listed receives 1. -/
theorem c8_sample_weights (n : Nat) :
    (sample_weights n).length = n ∧
    ∀ i, i < n → (sample_weights n).getD i 0 = (n - i) ^ 2 := by
  constructor
  · simp [sample_weights]
  · intro i hi
    have hb : i < (((List.range' 1 n).reverse).map fun w => w * w).length := by
      simp
      omega
    rw [sample_weights, List.getD_eq_getElem _ _ hb, List.getElem_map,
      List.getElem_reverse, List.getElem_range'_1]
    have harith : 1 + (List.length (List.range' 1 n) - 1 - i) = n - i := by
      simp
      omega
    rw [harith, pow_two]

/-- Witness for c8_sample_weights at pool size 4, index 1. -/
theorem c8_sample_weights_witness :
    (sample_weights 4).length = 4 ∧ (1 : Nat) < 4 ∧
    (sample_weights 4).getD 1 0 = (4 - 1) ^ 2 :=
  ⟨(c8_sample_weights 4).1, by decide, (c8_sample_weights 4).2 1 (by decide)⟩

lemma sample_weights_sum_eq_zero_iff (n : Nat) : (sample_weights n).sum = 0 ↔ n = 0 := by
  cases n with
  | zero => simp [sample_weights]
  | succ m =>
    simp only [sample_weights]
    constructor
    · intro h
      exfalso
      rw [List.range'_1_concat, List.reverse_append] at h
      simp only [List.reverse_cons, List.reverse_nil, List.nil_append,
        List.singleton_append, List.map_cons, List.sum_cons] at h
      have h1 : (1 + m) * (1 + m) = 0 := by omega
      have h2 : 1 + m = 0 := by
        rcases Nat.mul_eq_zero.mp h1 with h2 | h2 <;> exact h2
      omega
    · intro h
      exact absurd h (Nat.succ_ne_zero m)

lemma format_example_loop_length (answer : List (List Word)) (choices : List Nat)
    (used : List Word) :
    (format_example_loop answer choices used).length = answer.length := by
  induction answer generalizing choices used with
  | nil => rfl
  | cons row rest ih =>
    simp only [format_example_loop]
    split <;> split <;> simp [ih]

lemma format_example_loop_getD_none (answer : List (List Word)) (choices : List Nat)
    (used : List Word) (k : Nat) (hk : k < answer.length)
    (hrow : answer.getD k [] = []) :
    (format_example_loop answer choices used).getD k none = none := by
  induction answer generalizing choices used k with
  | nil => simp at hk
  | cons row rest ih =>
    cases k with
    | zero =>
      have hrow0 : row = [] := by simpa using hrow
      subst hrow0
      rfl
    | succ k2 =>
      have hrow2 : rest.getD k2 [] = [] := by simpa using hrow
      have hk2 : k2 < rest.length := by simpa using hk
      simp only [format_example_loop]
      split
      · split
        · simpa using ih choices used k2 hk2 hrow2
        · simpa using ih choices.tail _ k2 hk2 hrow2
      · split
        · simpa using ih choices used k2 hk2 hrow2
        · simpa using ih choices.tail _ k2 hk2 hrow2

/-- C7: a row with an empty sampling pool (an empty candidate list) makes the
sampled renderer emit the no-solution sentinel line for that row, mark
nothing as used, raise no error, and continue with the remaining rows (one
output line per row); in exhaustive mode an empty candidate list renders as
an empty line. -/
theorem c7_empty_pool (answer : List (List Word)) (choices : List Nat) (k : Nat)
    (hk : k < answer.length) (hrow : answer.getD k [] = []) :
    (format_example_lines answer choices).length = answer.length ∧
    (format_example_lines answer choices).getD k [] = "[no solution]".data ∧
    (∀ rest : List (List Word), ∀ cs : List Nat, ∀ used : List Word,
      format_example_loop ([] :: rest) cs used
        = none :: format_example_loop rest cs used) ∧
    (format_full_lines answer).getD k [' '] = [] := by
  have hlen := format_example_loop_length answer choices []
  refine ⟨?_, ?_, ?_, ?_⟩
  · simp [format_example_lines, hlen]
  · have hnone := format_example_loop_getD_none answer choices [] k (by omega) hrow
    have hk2 : k < (format_example_loop answer choices []).length := by omega
    have helem : (format_example_loop answer choices [])[k]? = some none := by
      rw [List.getElem?_eq_getElem hk2]
      rw [List.getD_eq_getElem _ _ hk2] at hnone
      rw [hnone]
    rw [format_example_lines, List.getD_eq_getElem?_getD, List.getElem?_map, helem]
    rfl
  · intro rest cs used
    rfl
  · have hak : answer[k]? = some [] := by
      rw [List.getElem?_eq_getElem hk]
      rw [List.getD_eq_getElem _ _ hk] at hrow
      rw [hrow]
    rw [format_full_lines, List.getD_eq_getElem?_getD, List.getElem?_map, hak]
    rfl

/-- Witness for c7_empty_pool: first row empty, second row non-empty. -/
theorem c7_empty_pool_witness :
    (format_example_lines [([] : List Word), [['a']]] [0]).length = 2 ∧
    (format_example_lines [([] : List Word), [['a']]] [0]).getD 0 []
      = "[no solution]".data ∧
    (format_full_lines [([] : List Word), [['a']]]).getD 0 [' '] = [] := by
  have h := c7_empty_pool [[], [['a']]] [0] 0 (by decide) (by decide)
  exact ⟨by simpa using h.1, h.2.1, h.2.2.2⟩

lemma mem_take_filterMap_of_getD (l : List (Option Word)) (j k : Nat) (w : Word)
    (hjk : j < k) (hj : l.getD j none = some w) :
    w ∈ (l.take k).filterMap id := by
  induction l generalizing j k with
  | nil => simp at hj
  | cons a rest ih =>
    cases j with
    | zero =>
      have ha : a = some w := by simpa using hj
      subst ha
      cases k with
      | zero => omega
      | succ k2 => simp
    | succ j2 =>
      cases k with
      | zero => omega
      | succ k2 =>
        have hmem : w ∈ (rest.take k2).filterMap id :=
          ih j2 k2 (by omega) (by simpa using hj)
        cases a with
        | none => simpa using hmem
        | some b => simp [hmem]

lemma format_example_loop_avoid (answer : List (List Word)) (choices : List Nat)
    (used : List Word) (k : Nat) (w : Word) (hk : k < answer.length)
    (hkw : (format_example_loop answer choices used).getD k none = some w)
    (hw : w ∈ used ∨
      w ∈ ((format_example_loop answer choices used).take k).filterMap id) :
    ∀ w2 ∈ answer.getD k [], w2 ∈ used ∨
      w2 ∈ ((format_example_loop answer choices used).take k).filterMap id := by
  induction answer generalizing choices used k with
  | nil => simp at hk
  | cons row rest ih =>
    set u := row.filter fun w3 => decide (w3 ∉ used) with hu
    set pool := if u.isEmpty then row else u with hpool
    have hcons : format_example_loop (row :: rest) choices used =
        if (sample_weights pool.length).sum = 0 then
          none :: format_example_loop rest choices used
        else
          some (pool.getD (choices.headD 0 % pool.length) []) ::
            format_example_loop rest choices.tail
              (pool.getD (choices.headD 0 % pool.length) [] :: used) := rfl
    cases k with
    | zero =>
      rw [hcons] at hkw
      simp only [List.take_zero, List.filterMap_nil] at hw ⊢
      have hwu : w ∈ used := by
        rcases hw with h | h
        · exact h
        · simp at h
      intro w2 hw2
      have hw2r : w2 ∈ row := by simpa using hw2
      refine Or.inl ?_
      by_cases hsum : (sample_weights pool.length).sum = 0
      · rw [if_pos hsum] at hkw
        simp at hkw
      · rw [if_neg hsum] at hkw
        have hplen : pool.length ≠ 0 := fun hc => hsum (by rw [hc]; rfl)
        have hidx : choices.headD 0 % pool.length < pool.length :=
          Nat.mod_lt _ (by omega)
        have hword : pool.getD (choices.headD 0 % pool.length) [] ∈ pool := by
          rw [List.getD_eq_getElem _ _ hidx]
          exact List.getElem_mem hidx
        have hkw0 : pool.getD (choices.headD 0 % pool.length) [] = w := by
          simpa using hkw
        rw [hkw0] at hword
        by_cases hue : u.isEmpty
        · have hunil : u = [] := by simpa using hue
          have hall := List.filter_eq_nil_iff.mp (hu.symm.trans hunil)
          simpa using hall w2 hw2r
        · exfalso
          have hpu : pool = u := by rw [hpool, if_neg hue]
          rw [hpu, hu] at hword
          have hnot := (List.mem_filter.mp hword).2
          simp at hnot
          exact hnot hwu
    | succ k2 =>
      intro w2 hw2
      have hw2r : w2 ∈ rest.getD k2 [] := by simpa using hw2
      have hk2 : k2 < rest.length := by simpa using hk
      rw [hcons] at hkw hw ⊢
      by_cases hsum : (sample_weights pool.length).sum = 0
      · rw [if_pos hsum] at hkw hw ⊢
        have hkw2 : (format_example_loop rest choices used).getD k2 none = some w := by
          simpa using hkw
        have hw2x : w ∈ used ∨
            w ∈ ((format_example_loop rest choices used).take k2).filterMap id := by
          rcases hw with h | h
          · exact Or.inl h
          · exact Or.inr (by simpa using h)
        rcases ih choices used k2 hk2 hkw2 hw2x w2 hw2r with h | h
        · exact Or.inl h
        · refine Or.inr ?_
          simpa using h
      · rw [if_neg hsum] at hkw hw ⊢
        set w0 := pool.getD (choices.headD 0 % pool.length) [] with hw0
        have hkw2 : (format_example_loop rest choices.tail (w0 :: used)).getD k2 none
            = some w := by simpa using hkw
        have hw2x : w ∈ (w0 :: used) ∨
            w ∈ ((format_example_loop rest choices.tail (w0 :: used)).take k2).filterMap
              id := by
          rcases hw with h | h
          · exact Or.inl (List.mem_cons_of_mem _ h)
          · have h2 : w = w0 ∨
                w ∈ ((format_example_loop rest choices.tail (w0 :: used)).take
                  k2).filterMap id := by
              simpa using h
            rcases h2 with h2 | h2
            · exact Or.inl (by rw [h2]; exact List.mem_cons_self _ _)
            · exact Or.inr h2
        rcases ih choices.tail (w0 :: used) k2 hk2 hkw2 hw2x w2 hw2r with h | h
        · rcases List.mem_cons.mp h with h2 | h2
          · refine Or.inr ?_
            subst h2
            simp
          · exact Or.inl h2
        · refine Or.inr ?_
          simpa using Or.inr h

/-- C6: in sampled mode, whatever the draw outcomes, a word chosen for row k
that was already chosen for an earlier row j forces the conclusion that row
k had no as-yet-unused candidate: every candidate of row k already appears
among the words chosen for earlier rows.  (The pool is the unused subset
whenever non-empty, the full list otherwise, and chosen words are marked
used immediately.) -/
theorem c6_used_word_avoidance (answer : List (List Word)) (choices : List Nat)
    (j k : Nat) (w : Word) (hjk : j < k) (hk : k < answer.length)
    (hj : (format_example_loop answer choices []).getD j none = some w)
    (hkw : (format_example_loop answer choices []).getD k none = some w) :
    ∀ w2 ∈ answer.getD k [],
      w2 ∈ ((format_example_loop answer choices []).take k).filterMap id := by
  have hmem := mem_take_filterMap_of_getD _ j k w hjk hj
  intro w2 hw2
  rcases format_example_loop_avoid answer choices [] k w hk hkw (Or.inr hmem) w2 hw2
    with h | h
  · simp at h
  · exact h

/-- Witness for c6_used_word_avoidance: two rows both offering only the word
a, so the second row must reuse it and indeed has no unused candidate. -/
theorem c6_used_word_avoidance_witness :
    (0 : Nat) < 1 ∧
    (['a'] : Word) ∈
      ((format_example_loop [[['a']], [['a']]] [0, 0] []).take 1).filterMap id :=
  ⟨by decide,
    c6_used_word_avoidance [[['a']], [['a']]] [0, 0] 0 1 ['a'] (by decide)
      (by decide) (by decide) (by decide) ['a'] (by decide)⟩

end WordleArtist

